import Mathlib

/-!
Verification of the pt-tools Pairtree core against its specification.

The Go sources are shallowly embedded: Go strings become `List Char`
(a Go `for range` loop iterates runes), file paths are the literal
strings manipulated by `path/filepath` (all paths appearing in the
claims are already in cleaned form, so `filepath.Clean` is modelled as
the identity on its inputs), and the filesystem state that an
operation inspects or rewrites is passed explicitly.
-/

/-- Go strings, as sequences of runes. -/
abbrev Str := List Char

/-- The typed errors of pkg/error-msgs (error_msgs.go), restricted to the ones
the embedded operations can produce, plus the `os.IsNotExist` condition. -/
inductive PtErr
  /-- Err1: pairtree_prefix file exists, but is empty -/
  | e1
  /-- Err3: the pairtree root is empty -/
  | e3
  /-- Err4: the pairtree id is empty -/
  | e4
  /-- Err5: the id does not carry the configured pairtree prefix -/
  | e5
  /-- Err12: temp directory does not contain exactly one folder -/
  | e12
  /-- Err13: folder name does not match pairtree ID -/
  | e13
  /-- an `os.IsNotExist` error from the underlying filesystem -/
  | eNotExist
deriving DecidableEq

/-- Whitespace recognizer used by Go's `strings.TrimSpace`
(`unicode.IsSpace` on the Latin-1 range; the higher Unicode space code
points play no role in any claim). -/
def isSpaceCh (c : Char) : Bool :=
  c.toNat = 0x20 || c.toNat = 0x9 || c.toNat = 0xa || c.toNat = 0xb ||
  c.toNat = 0xc || c.toNat = 0xd || c.toNat = 0x85 || c.toNat = 0xa0

/-- Go `strings.TrimSpace`: strip leading and trailing whitespace. -/
def trimSpace (s : Str) : Str :=
  ((s.dropWhile isSpaceCh).reverse.dropWhile isSpaceCh).reverse

/-- Go `strings.HasPrefix p s` (arguments: the prefix first, then the string,
mirroring `strings.HasPrefix(s, p)` with the roles spelled out). -/
def hasPre : Str → Str → Bool
  | [], _ => true
  | _ :: _, [] => false
  | a :: as, b :: bs => a = b && hasPre as bs

/-- Go `filepath.Join` on two elements, for already-clean path strings:
empty elements are dropped and `Clean` turns `./x` into `x`. -/
def fpJoin (a b : Str) : Str :=
  if a = [] then b
  else if b = [] then a
  else if a = ['.'] then b
  else a ++ '/' :: b

/-- Lowercase hex digits of `n`, zero-padded to width two: Go
`fmt.Sprintf("%02x", n)` (core `Nat.toDigits 16` emits lowercase). -/
def hexPad2 (n : Nat) : Str :=
  let ds := Nat.toDigits 16 n
  if ds.length = 1 then '0' :: ds else ds

/-- One iteration of the `switch` in `EncodeChar` (unnamed/part_009,
lines 105-121): the rune-level pairtree character substitution. -/
def encodeOne (c : Char) : Str :=
  if c = ' ' ∨ c = '"' ∨ c = '*' ∨ c = '+' ∨ c = ',' ∨ c = '<' ∨ c = '=' ∨
     c = '>' ∨ c = '?' ∨ c = '\\' ∨ c = '^' ∨ c = '|' then
    '^' :: hexPad2 c.toNat
  else if c = '/' then ['=']
  else if c = ':' then ['+']
  else if c = '.' then [',']
  else [c]

/-- Embedding of `EncodeChar` (unnamed/part_009, lines 102-124): the loop appends
`encodeOne` of every rune to a `strings.Builder`. -/
def EncodeChar : Str → Str
  | [] => []
  | c :: t => encodeOne c ++ EncodeChar t

/-- Modelled from the spec: the substitution table of spec section 4.1/6,
written out verbatim (single-character substitutions for slash, colon and
dot; a caret followed by the two lowercase hex digits of the ASCII code
for the twelve escape characters; identity otherwise). Used as the
independent, spec-side reading of the table for the refinement claim C1. -/
def specSub (c : Char) : Str :=
  if c = '/' then ['=']
  else if c = ':' then ['+']
  else if c = '.' then [',']
  else if c = ' ' then ['^', '2', '0']
  else if c = '"' then ['^', '2', '2']
  else if c = '*' then ['^', '2', 'a']
  else if c = '+' then ['^', '2', 'b']
  else if c = ',' then ['^', '2', 'c']
  else if c = '<' then ['^', '3', 'c']
  else if c = '=' then ['^', '3', 'd']
  else if c = '>' then ['^', '3', 'e']
  else if c = '?' then ['^', '3', 'f']
  else if c = '\\' then ['^', '5', 'c']
  else if c = '^' then ['^', '5', 'e']
  else if c = '|' then ['^', '7', 'c']
  else [c]

/-- Modelled from the spec: the spec-side encoder, applying the section 4.1
substitution table character by character. -/
def specEncode : Str → Str
  | [] => []
  | c :: t => specSub c ++ specEncode t

theorem encodeOne_eq_specSub (c : Char) : encodeOne c = specSub c := by
  by_cases h1 : c = ' '; · subst h1; decide
  by_cases h2 : c = '"'; · subst h2; decide
  by_cases h3 : c = '*'; · subst h3; decide
  by_cases h4 : c = '+'; · subst h4; decide
  by_cases h5 : c = ','; · subst h5; decide
  by_cases h6 : c = '<'; · subst h6; decide
  by_cases h7 : c = '='; · subst h7; decide
  by_cases h8 : c = '>'; · subst h8; decide
  by_cases h9 : c = '?'; · subst h9; decide
  by_cases h10 : c = '\\'; · subst h10; decide
  by_cases h11 : c = '^'; · subst h11; decide
  by_cases h12 : c = '|'; · subst h12; decide
  by_cases h13 : c = '/'; · subst h13; decide
  by_cases h14 : c = ':'; · subst h14; decide
  by_cases h15 : c = '.'; · subst h15; decide
  simp [encodeOne, specSub, h1, h2, h3, h4, h5, h6, h7, h8, h9, h10, h11,
    h12, h13, h14, h15]

/-- Claim C1: for every input string, the identifier encoding function
`EncodeChar` rewrites exactly the reserved characters per the fixed
substitution table (slash to equals, colon to plus, dot to comma, the
twelve escape characters to a caret and two lowercase hex digits of
their ASCII code) and passes every other character through unchanged. -/
theorem thmC01 (s : Str) : EncodeChar s = specEncode s := by
  induction s with
  | nil => rfl
  | cons c t ih => simp [EncodeChar, specEncode, encodeOne_eq_specSub, ih]

/-- Hex digit value of a character, inverting `Nat.digitChar` on the
digits that `hexPad2` can produce. -/
def hexVal (c : Char) : Nat :=
  if '0' ≤ c ∧ c ≤ '9' then c.toNat - 48 else c.toNat - 87

/-- A one-step decoder for the pairtree character code: reads back the
character that produced the front of an encoded string. Only used to
establish that `EncodeChar` is injective. -/
def decodeOne : Str → Option (Char × Str)
  | [] => none
  | c :: rest =>
    if c = '^' then
      match rest with
      | x :: y :: r2 => some (Char.ofNat (16 * hexVal x + hexVal y), r2)
      | _ => none
    else if c = '=' then some ('/', rest)
    else if c = '+' then some (':', rest)
    else if c = ',' then some ('.', rest)
    else some (c, rest)

theorem decodeOne_encodeOne (c : Char) (r : Str) :
    decodeOne (encodeOne c ++ r) = some (c, r) := by
  by_cases h1 : c = ' '
  · subst h1; rw [show encodeOne ' ' = ['^', '2', '0'] from by decide]; rfl
  by_cases h2 : c = '"'
  · subst h2; rw [show encodeOne '"' = ['^', '2', '2'] from by decide]; rfl
  by_cases h3 : c = '*'
  · subst h3; rw [show encodeOne '*' = ['^', '2', 'a'] from by decide]; rfl
  by_cases h4 : c = '+'
  · subst h4; rw [show encodeOne '+' = ['^', '2', 'b'] from by decide]; rfl
  by_cases h5 : c = ','
  · subst h5; rw [show encodeOne ',' = ['^', '2', 'c'] from by decide]; rfl
  by_cases h6 : c = '<'
  · subst h6; rw [show encodeOne '<' = ['^', '3', 'c'] from by decide]; rfl
  by_cases h7 : c = '='
  · subst h7; rw [show encodeOne '=' = ['^', '3', 'd'] from by decide]; rfl
  by_cases h8 : c = '>'
  · subst h8; rw [show encodeOne '>' = ['^', '3', 'e'] from by decide]; rfl
  by_cases h9 : c = '?'
  · subst h9; rw [show encodeOne '?' = ['^', '3', 'f'] from by decide]; rfl
  by_cases h10 : c = '\\'
  · subst h10; rw [show encodeOne '\\' = ['^', '5', 'c'] from by decide]; rfl
  by_cases h11 : c = '^'
  · subst h11; rw [show encodeOne '^' = ['^', '5', 'e'] from by decide]; rfl
  by_cases h12 : c = '|'
  · subst h12; rw [show encodeOne '|' = ['^', '7', 'c'] from by decide]; rfl
  by_cases h13 : c = '/'
  · subst h13; rw [show encodeOne '/' = ['='] from by decide]; rfl
  by_cases h14 : c = ':'
  · subst h14; rw [show encodeOne ':' = ['+'] from by decide]; rfl
  by_cases h15 : c = '.'
  · subst h15; rw [show encodeOne '.' = [','] from by decide]; rfl
  have he : encodeOne c = [c] := by
    simp [encodeOne, h1, h2, h3, h4, h5, h6, h7, h8, h9, h10, h11, h12, h13,
      h14, h15]
  rw [he]
  simp [decodeOne, h11, h7, h4, h5]

theorem encodeOne_ne_nil (c : Char) : encodeOne c ≠ [] := by
  intro h
  have h2 := decodeOne_encodeOne c []
  rw [h] at h2
  simp [decodeOne] at h2

theorem encodeChar_injective : ∀ a b : Str, EncodeChar a = EncodeChar b → a = b := by
  intro a
  induction a with
  | nil =>
    intro b h
    cases b with
    | nil => rfl
    | cons d u =>
      exfalso
      have : encodeOne d ++ EncodeChar u = [] := (congrArg id h).symm
      exact encodeOne_ne_nil d (List.append_eq_nil.mp this).1
  | cons c t ih =>
    intro b h
    cases b with
    | nil =>
      exfalso
      have : encodeOne c ++ EncodeChar t = [] := congrArg id h
      exact encodeOne_ne_nil c (List.append_eq_nil.mp this).1
    | cons d u =>
      have h2 := congrArg decodeOne h
      rw [show EncodeChar (c :: t) = encodeOne c ++ EncodeChar t from rfl,
        show EncodeChar (d :: u) = encodeOne d ++ EncodeChar u from rfl,
        decodeOne_encodeOne, decodeOne_encodeOne] at h2
      injection h2 with h3
      injection h3 with hcd hrest
      subst hcd
      rw [ih u hrest]

/-- The reserved-plus-unreserved identifier alphabet of the pairtree spec
(spec sections 4.1 and 6): the visible ASCII characters together with
space, i.e. code points 0x20 through 0x7e. -/
def inAlphabet (c : Char) : Prop := 0x20 ≤ c.toNat ∧ c.toNat ≤ 0x7e

instance (c : Char) : Decidable (inAlphabet c) := by
  unfold inAlphabet; infer_instance

/-- Claim C3: the identifier encoding is injective: for all identifiers
a and b consisting only of characters in the reserved+unreserved
alphabet, if a differs from b then `EncodeChar a` differs from
`EncodeChar b`. -/
theorem thmC03 (a b : Str) (_ha : ∀ c ∈ a, inAlphabet c)
    (_hb : ∀ c ∈ b, inAlphabet c) (hne : a ≠ b) :
    EncodeChar a ≠ EncodeChar b :=
  fun h => hne (encodeChar_injective a b h)

/-- Witness for C3 at concrete inputs "ab" and "a". -/
theorem witC03 : EncodeChar ("ab").data ≠ EncodeChar ("a").data :=
  thmC03 ("ab").data ("a").data (by decide) (by decide) (by decide)

/-- Modelled from the spec: the external caltechlibrary pairtree
`CharEncode`, whose substitution table the spec (section 6, "Encoding
table", reproduced exactly for interoperability) makes identical to the
fixed table of `EncodeChar`. -/
def CharEncode (s : Str) : Str := EncodeChar s

/-- Greedy split of an encoded identifier into two-character shard
groups, the final group holding one or two characters. -/
def shardGroups : Str → List Str
  | [] => []
  | [a] => [[a]]
  | a :: b :: t => [a, b] :: shardGroups t

/-- Join shard groups with the path separator. -/
def joinSlash : List Str → Str
  | [] => []
  | [g] => g
  | g :: t => g ++ '/' :: joinSlash t

/-- Modelled from the spec: the external caltechlibrary pairtree `Encode`,
which per spec section 4.3 computes the shard path by greedily consuming
the reserved-encoded identifier two characters at a time (last group one
or two characters) to form nested directory names. -/
def ptEncode (id : Str) : Str := joinSlash (shardGroups (CharEncode id))

/-- The `pairtree_root` storage subdirectory name. -/
def rootDirName : Str := ("pairtree_root").data

/-- Embedding of `CreatePP` (pkg/pairtree/pairtree.go, lines 109-134): validates root
and id, strips the configured prefix, and assembles
root/pairtree_root/shards/encoded-id. -/
def CreatePP (id ptRoot pre : Str) : Except PtErr Str :=
  if trimSpace ptRoot = [] then .error .e3
  else if trimSpace id = [] then .error .e4
  else if hasPre pre id then
    let id2 := id.drop pre.length
    let root2 := fpJoin ptRoot rootDirName
    let pairPath := fpJoin (ptEncode id2) (CharEncode id2)
    .ok (fpJoin root2 pairPath)
  else .error .e5

/-- Whether an `Except` result is a success. -/
def isOkE {α : Type} (e : Except PtErr α) : Bool :=
  match e with
  | .ok _ => true
  | .error _ => false

/-- Claim C2: `CreatePP` maps the two section-8 example inputs to exactly
the stated paths: ark:/345621 over root "root" with prefix "ark:/"
yields root/pairtree_root/34/56/21/345621, and ark:/34:621 yields
root/pairtree_root/34/+6/21/34+621, both without error. -/
theorem thmC02 :
    CreatePP ("ark:/345621").data ("root").data ("ark:/").data =
      .ok ("root/pairtree_root/34/56/21/345621").data ∧
    CreatePP ("ark:/34:621").data ("root").data ("ark:/").data =
      .ok ("root/pairtree_root/34/+6/21/34+621").data := by
  exact ⟨rfl, rfl⟩

/-- Counterexample for C4: an id exactly equal to the (non-blank)
configured prefix is accepted, not rejected: the stripped identifier is
empty, yet `CreatePP` succeeds and returns the bare storage directory. -/
theorem cexC04 :
    CreatePP ("ark:/").data ("root").data ("ark:/").data =
      .ok ("root/pairtree_root").data := rfl

/-- Claim C4 as amended: `CreatePP id root pre` returns an error if and
only if root is blank (whitespace only), id is blank, or id does not
start with pre; an id exactly equal to a non-blank prefix is accepted
(no emptiness check runs on the stripped identifier). -/
theorem thmC04 (id ptRoot pre : Str) :
    isOkE (CreatePP id ptRoot pre) = false ↔
      (trimSpace ptRoot = [] ∨ trimSpace id = [] ∨ hasPre pre id = false) := by
  by_cases h1 : trimSpace ptRoot = []
  · simp [CreatePP, h1, isOkE]
  by_cases h2 : trimSpace id = []
  · simp [CreatePP, h1, h2, isOkE]
  by_cases h3 : hasPre pre id
  · simp [CreatePP, h1, h2, h3, isOkE]
  · simp [CreatePP, h1, h2, h3, isOkE]

/-- Witness for C4 (amended): at the concrete input of the
counterexample the right-hand side is false, so `CreatePP` succeeds. -/
theorem witC04 :
    isOkE (CreatePP ("ark:/").data ("root").data ("ark:/").data) ≠ false := by
  intro h
  have h2 := (thmC04 ("ark:/").data ("root").data ("ark:/").data).mp h
  revert h2
  decide

/-- Claim C9: when the configured prefix is the empty string, `CreatePP`
never returns the prefix-mismatch error: for every non-blank id and
non-blank root, `CreatePP id root ""` succeeds, because the empty string
is a prefix of every identifier. -/
theorem thmC09 (id ptRoot : Str) (hid : trimSpace id ≠ [])
    (hroot : trimSpace ptRoot ≠ []) :
    isOkE (CreatePP id ptRoot []) = true := by
  simp [CreatePP, hid, hroot, show hasPre [] id = true from rfl, isOkE]

/-- Witness for C9 at id "a" and root "r". -/
theorem witC09 : isOkE (CreatePP ("a").data ("r").data []) = true :=
  thmC09 ("a").data ("r").data (by decide) (by decide)

/-- Embedding of `GetPrefix` (pkg/pairtree/pairtree.go, lines 55-82), over the
observable state of the prefix marker file: `none` when the file is
absent, `some content` when present (read I/O failures are surfaced
verbatim by the code and are outside this model). -/
def getPre (f : Option Str) : Except PtErr Str :=
  match f with
  | none => .ok []
  | some content => if content.length = 0 then .error .e1 else .ok content

/-- Counterexample for C8: with surrounding whitespace in the marker
file, `GetPrefix` returns the raw contents, which differ from their
trimmed form, so the contents are not "trimmed of surrounding
whitespace" as claimed. -/
theorem cexC08 :
    getPre (some (" ark:/ ").data) = .ok ((" ark:/ ").data) ∧
      trimSpace ((" ark:/ ").data) ≠ (" ark:/ ").data := by
  exact ⟨rfl, by decide⟩

/-- Claim C8 as amended: `GetPrefix` returns the empty string with no
error when the prefix marker file is absent, an error when the file is
present but empty, and otherwise the file's contents exactly as stored
(no whitespace trimming is applied). -/
theorem thmC08 :
    getPre none = .ok [] ∧
    getPre (some []) = .error .e1 ∧
    (∀ c : Str, c ≠ [] → getPre (some c) = .ok c) := by
  refine ⟨rfl, rfl, ?_⟩
  intro c hc
  simp [getPre, hc]

/-- Witness for C8 (amended), at the one-character content "a". -/
theorem witC08 : getPre (some (("a").data)) = .ok (("a").data) :=
  thmC08.2.2 (("a").data) (by decide)

/-- ASCII decimal digit for `n < 10`. -/
def decDigit (n : Nat) : Char := Char.ofNat (48 + n)

/-- Decimal digits of `n`, most significant first, with explicit fuel
(structurally recursive rendering of Go `fmt.Sprintf` with the decimal
verb; the fuel `n + 1` always suffices). -/
def natDecAux : Nat → Nat → Str
  | 0, _ => []
  | fuel + 1, n =>
    if n < 10 then [decDigit n]
    else natDecAux fuel (n / 10) ++ [decDigit (n % 10)]

/-- Go `fmt.Sprintf` decimal rendering of a natural number. -/
def natDec (n : Nat) : Str := natDecAux (n + 1) n

/-- Decimal parser, the left inverse used to show `natDec` is injective. -/
def parseDec (s : Str) : Nat := s.foldl (fun a c => a * 10 + (c.toNat - 48)) 0

theorem parseDec_append_digit (xs : Str) (c : Char) :
    parseDec (xs ++ [c]) = parseDec xs * 10 + (c.toNat - 48) := by
  simp [parseDec, List.foldl_append]

theorem decDigit_toNat (n : Nat) (h : n < 10) : (decDigit n).toNat = 48 + n := by
  interval_cases n <;> decide

theorem parseDec_natDecAux : ∀ fuel n, n < fuel → parseDec (natDecAux fuel n) = n := by
  intro fuel
  induction fuel with
  | zero => intro n h; omega
  | succ f ih =>
    intro n h
    by_cases h10 : n < 10
    · simp [natDecAux, h10, parseDec, decDigit_toNat n h10]
    · have hn : 0 < n := by omega
      have hdiv : n / 10 < n := Nat.div_lt_self hn (by norm_num)
      have hf : n / 10 < f := by omega
      simp only [natDecAux, h10, if_false]
      rw [parseDec_append_digit, ih (n / 10) hf,
        decDigit_toNat (n % 10) (Nat.mod_lt n (by norm_num))]
      omega

theorem natDec_inj (a b : Nat) (h : natDec a = natDec b) : a = b := by
  have ha := parseDec_natDecAux (a + 1) a (Nat.lt_succ_self a)
  have hb := parseDec_natDecAux (b + 1) b (Nat.lt_succ_self b)
  rw [← ha, ← hb]
  unfold natDec at h
  rw [h]

/-- Split a string around the last occurrence of `sep`: `some (d, b)`
with the part before and after it, `none` when `sep` does not occur. -/
def breakLast (sep : Char) : Str → Option (Str × Str)
  | [] => none
  | c :: rest =>
    match breakLast sep rest with
    | some (d, b) => some (c :: d, b)
    | none => if c = sep then some ([], rest) else none

/-- Go `filepath.Dir` for clean paths without a trailing separator. -/
def dirOf (p : Str) : Str :=
  match breakLast '/' p with
  | some (d, _) => if d = [] then ['/'] else d
  | none => ['.']

/-- Go `filepath.Base` for clean paths without a trailing separator. -/
def baseOf (p : Str) : Str :=
  match breakLast '/' p with
  | some (_, b) => b
  | none => p

/-- Go `filepath.Ext` applied to a path's final element: the suffix from
the final dot, empty when there is none. -/
def extOf (b : Str) : Str :=
  match breakLast '.' b with
  | some (_, e) => '.' :: e
  | none => []

/-- Go `strings.TrimSuffix base ext` with `ext` as computed by `extOf`:
the final element with its extension stripped. -/
def stripExt (b : Str) : Str :=
  match breakLast '.' b with
  | some (d, _) => d
  | none => b

/-- One candidate destination probed by the `GetUniqueDestination` loop:
`filepath.Join(dir, fmt.Sprintf("%s.%d%s", baseWithoutExt, n, ext))`. -/
def candDest (d bne e : Str) (n : Nat) : Str :=
  fpJoin d (bne ++ '.' :: (natDec n ++ e))

/-- The probe loop of `GetUniqueDestination` (pairtree.go, lines 257-267),
with explicit fuel: returns the first candidate, counting from `c`, that
does not exist. The Go loop runs unboundedly; because the candidates are
pairwise distinct and the filesystem is finite, fuel `length + 1` is
enough to reach a free candidate (proved below), so the fuel never runs
out on the argument `GetUniqueDestination` passes. -/
def scanFree (fsL : List Str) (cand : Nat → Str) : Nat → Nat → Str
  | c, 0 => cand c
  | c, fuel + 1 => if cand c ∈ fsL then scanFree fsL cand (c + 1) fuel else cand c

/-- Embedding of `GetUniqueDestination` (pkg/pairtree/pairtree.go, lines 240-268),
embedded over the finite list `fsL` of existing filesystem paths
(`os.Stat` succeeds exactly on members of `fsL`). -/
def GetUniqueDestination (fsL : List Str) (dest : Str) : Str :=
  if dest ∈ fsL then
    let d := dirOf dest
    let b := baseOf dest
    let e := extOf b
    let bne := stripExt b
    scanFree fsL (candDest d bne e) 1 (fsL.length + 1)
  else dest

theorem scanFree_not_mem (fsL : List Str) (cand : Nat → Str) :
    ∀ fuel c, (∃ i, c ≤ i ∧ i ≤ c + fuel ∧ cand i ∉ fsL) →
      scanFree fsL cand c fuel ∉ fsL := by
  intro fuel
  induction fuel with
  | zero =>
    intro c ⟨i, h1, h2, h3⟩
    have : i = c := by omega
    subst this
    simpa [scanFree] using h3
  | succ f ih =>
    intro c ⟨i, h1, h2, h3⟩
    by_cases hc : cand c ∈ fsL
    · simp only [scanFree, if_pos hc]
      apply ih
      have : i ≠ c := fun he => h3 (he ▸ hc)
      exact ⟨i, by omega, by omega, h3⟩
    · simp [scanFree, hc]

theorem exists_cand_free (fsL : List Str) (cand : Nat → Str)
    (hinj : ∀ a b, cand a = cand b → a = b) :
    ∃ i, 1 ≤ i ∧ i ≤ 1 + fsL.length ∧ cand i ∉ fsL := by
  by_contra hcon
  push_neg at hcon
  have hmaps : ∀ i ∈ Finset.Icc 1 (1 + fsL.length), cand i ∈ fsL.toFinset := by
    intro i hi
    rw [List.mem_toFinset]
    exact hcon i (Finset.mem_Icc.mp hi).1 (Finset.mem_Icc.mp hi).2
  have hinjOn : Set.InjOn cand (Finset.Icc 1 (1 + fsL.length)) :=
    fun a _ b _ h => hinj a b h
  have hcard := Finset.card_le_card_of_injOn cand hmaps hinjOn
  rw [Nat.card_Icc] at hcard
  have hlen := fsL.toFinset_card_le
  omega

theorem append_cons_cancel {α : Type} (a : List α) (x : α) (b c : List α)
    (h : a ++ x :: b = a ++ x :: c) : b = c := by
  have h2 := List.append_cancel_left h
  injection h2

theorem candDest_inj (d bne e : Str) (a b : Nat)
    (h : candDest d bne e a = candDest d bne e b) : a = b := by
  have hmid : bne ++ '.' :: (natDec a ++ e) = bne ++ '.' :: (natDec b ++ e) := by
    by_cases hd : d = []
    · simpa [candDest, fpJoin, hd] using h
    · by_cases hdot : d = ['.']
      · simpa [candDest, fpJoin, hd, hdot] using h
      · simp only [candDest, fpJoin, hd, if_false, hdot,
          List.append_eq_nil, reduceCtorEq] at h
        exact append_cons_cancel d '/' _ _ (by simpa using h)
  have h3 : natDec a ++ e = natDec b ++ e := append_cons_cancel bne '.' _ _ hmid
  exact natDec_inj a b (List.append_cancel_right h3)

/-- Counterexample for C7: calling `GetUniqueDestination` on the existing
path d/a.1.txt (which already ends in the numeric suffix .1 before the
extension) returns d/a.1.1.txt, not the d/a.2.txt that the claim's
".(N+1)" rule predicts. -/
theorem cexC07 :
    GetUniqueDestination [("d/a.1.txt").data] ("d/a.1.txt").data =
      ("d/a.1.1.txt").data ∧
    ("d/a.1.1.txt").data ≠ ("d/a.2.txt").data := by
  exact ⟨rfl, by decide⟩

/-- Claim C7 as amended: `GetUniqueDestination` returns its argument
unchanged when no path exists at it; when the path exists it strips only
the final extension and appends an additional probed numeric suffix, so
an existing path already ending in .N before the extension yields
.N.1 appended (d/a.1.txt becomes d/a.1.1.txt, not d/a.2.txt); and the
returned path never names an existing filesystem entry. -/
theorem thmC07 (fsL : List Str) (dest : Str) :
    (dest ∉ fsL → GetUniqueDestination fsL dest = dest) ∧
    GetUniqueDestination fsL dest ∉ fsL ∧
    GetUniqueDestination [("d/a.1.txt").data] ("d/a.1.txt").data =
      ("d/a.1.1.txt").data := by
  refine ⟨fun h => by simp [GetUniqueDestination, h], ?_, rfl⟩
  by_cases h : dest ∈ fsL
  · simp only [GetUniqueDestination, if_pos h]
    apply scanFree_not_mem
    obtain ⟨i, h1, h2, h3⟩ :=
      exists_cand_free fsL (candDest (dirOf dest) (stripExt (baseOf dest)) (extOf (baseOf dest)))
        (candDest_inj _ _ _)
    exact ⟨i, h1, by omega, h3⟩
  · simp [GetUniqueDestination, h]

/-- Witness for C7 (amended), at the empty filesystem and path "x". -/
theorem witC07 : GetUniqueDestination [] ("x").data = ("x").data :=
  (thmC07 [] ("x").data).1 (by decide)

/-- A filesystem entry inside an object directory: a file, or a
directory with its children. -/
inductive Ent
  | file (nm : Str)
  | dir (nm : Str) (cs : List Ent)

/-- The observable part of an `fs.DirEntry`: its name and whether it is
a directory. -/
structure EntInfo where
  nm : Str
  isDir : Bool
deriving DecidableEq

/-- Name of an entry. -/
def Ent.name : Ent → Str
  | .file nm => nm
  | .dir nm _ => nm

/-- Whether an entry is a directory (`fs.DirEntry.IsDir`). -/
def Ent.isDir : Ent → Bool
  | .file _ => false
  | .dir _ _ => true

/-- The `fs.DirEntry` view of an entry. -/
def Ent.info : Ent → EntInfo
  | .file nm => ⟨nm, false⟩
  | .dir nm _ => ⟨nm, true⟩

/-- The Go `map[string][]fs.DirEntry` result, as an association list in
key-creation order. -/
abbrev EMap := List (Str × List EntInfo)

/-- The keys of the map. -/
def mapKeys (m : EMap) : List Str := m.map Prod.fst

/-- Lookup in the map. -/
def getM : EMap → Str → Option (List EntInfo)
  | [], _ => none
  | (k0, v0) :: t, k => if k0 = k then some v0 else getM t k

/-- Go map assignment `m[k] = v`: replace in place, or add a new key. -/
def setM : EMap → Str → List EntInfo → EMap
  | [], k, v => [(k, v)]
  | (k0, v0) :: t, k, v =>
    if k0 = k then (k, v) :: t else (k0, v0) :: setM t k v

/-- Go `m[k] = append(m[k], e)`. -/
def appendM (m : EMap) (k : Str) (e : EntInfo) : EMap :=
  setM m k ((getM m k).getD [] ++ [e])

mutual
/-- One visit of the `filepath.WalkDir` callback in `RecursiveFiles`
(pairtree.go, lines 142-163) for the entry `e` whose parent directory is
`parent`: the callback receives `path = filepath.Join(parent, e.name)`
and computes `parentDir = filepath.Dir(path) = parent`; it appends the
entry under `parentDir` and, for a directory, initializes the entry's
own key before the walk descends into it. -/
def walkEnt (parent : Str) (m : EMap) : Ent → EMap
  | .file nm => appendM m parent ⟨nm, false⟩
  | .dir nm cs =>
    walkKids (parent ++ '/' :: nm)
      (setM (appendM m parent ⟨nm, true⟩) (parent ++ '/' :: nm) []) cs
/-- The walk over a directory's children, in directory order. -/
def walkKids (p : Str) (m : EMap) : List Ent → EMap
  | [] => m
  | c :: cs => walkKids p (walkEnt p m c) cs
end

/-- Embedding of `RecursiveFiles` (pkg/pairtree/pairtree.go, lines 139-166),
over the state of the object directory at `pairPath`: `none` when the
path does not exist (`WalkDir` then reports `fs.ErrNotExist`), otherwise
`some cs` with its children. The walk skips the root directory itself
and records every other visited path under its parent directory. -/
def RecursiveFiles (pairPath : Str) (obj : Option (List Ent)) : Except PtErr EMap :=
  match obj with
  | none => .error .eNotExist
  | some cs => .ok (walkKids pairPath [] cs)

theorem mem_keys_setM (m : EMap) (k q : Str) (v : List EntInfo)
    (h : q ∈ mapKeys m) : q ∈ mapKeys (setM m k v) := by
  induction m with
  | nil => simp [mapKeys] at h
  | cons p t ih =>
    obtain ⟨k0, v0⟩ := p
    by_cases hk : k0 = k
    · subst hk
      simp only [mapKeys, List.map_cons, List.mem_cons] at h
      simp only [setM, if_pos rfl, mapKeys, List.map_cons, List.mem_cons,
        if_true]
      exact h.imp_left id
    · simp only [mapKeys, List.map_cons, List.mem_cons] at h
      simp only [setM, if_neg hk, mapKeys, List.map_cons, List.mem_cons]
      exact h.imp_right ih

theorem self_mem_keys_setM (m : EMap) (k : Str) (v : List EntInfo) :
    k ∈ mapKeys (setM m k v) := by
  induction m with
  | nil => simp [setM, mapKeys]
  | cons p t ih =>
    obtain ⟨k0, v0⟩ := p
    by_cases hk : k0 = k
    · simp [setM, hk, mapKeys]
    · simp only [setM, if_neg hk, mapKeys, List.map_cons, List.mem_cons]
      exact Or.inr ih

theorem mem_keys_appendM (m : EMap) (k q : Str) (e : EntInfo)
    (h : q ∈ mapKeys m) : q ∈ mapKeys (appendM m k e) :=
  mem_keys_setM m k q _ h

theorem self_mem_keys_appendM (m : EMap) (k : Str) (e : EntInfo) :
    k ∈ mapKeys (appendM m k e) :=
  self_mem_keys_setM m k _

mutual
theorem keys_mono_ent (p q : Str) (m : EMap) :
    ∀ e : Ent, q ∈ mapKeys m → q ∈ mapKeys (walkEnt p m e)
  | .file nm, h => mem_keys_appendM m p q ⟨nm, false⟩ h
  | .dir nm cs, h =>
    keys_mono_kids (p ++ '/' :: nm) q cs _
      (mem_keys_setM _ _ q [] (mem_keys_appendM m p q ⟨nm, true⟩ h))
theorem keys_mono_kids (p q : Str) :
    ∀ (cs : List Ent) (m : EMap), q ∈ mapKeys m → q ∈ mapKeys (walkKids p m cs)
  | [], _, h => h
  | c :: cs, m, h => keys_mono_kids p q cs (walkEnt p m c) (keys_mono_ent p q m c h)
end

theorem parent_mem_keys_walkEnt (p : Str) (m : EMap) (e : Ent) :
    p ∈ mapKeys (walkEnt p m e) := by
  cases e with
  | file nm => exact self_mem_keys_appendM m p ⟨nm, false⟩
  | dir nm cs =>
    exact keys_mono_kids (p ++ '/' :: nm) p cs _
      (mem_keys_setM _ _ p [] (self_mem_keys_appendM m p ⟨nm, true⟩))

theorem dirchild_mem_keys_walkKids (p nm : Str) (cs' : List Ent) :
    ∀ (cs : List Ent) (m : EMap), Ent.dir nm cs' ∈ cs →
      (p ++ '/' :: nm) ∈ mapKeys (walkKids p m cs) := by
  intro cs
  induction cs with
  | nil => intro m h; simp at h
  | cons c t ih =>
    intro m h
    rcases List.mem_cons.mp h with heq | ht
    · subst heq
      show (p ++ '/' :: nm) ∈ mapKeys (walkKids p (walkEnt p m (.dir nm cs')) t)
      apply keys_mono_kids
      show (p ++ '/' :: nm) ∈ mapKeys (walkKids (p ++ '/' :: nm) _ cs')
      exact keys_mono_kids _ _ cs' _ (self_mem_keys_setM _ _ [])
    · exact ih (walkEnt p m c) ht

/-- Relation stating that `q` is the path of a directory lying somewhere strictly below the
directory with path `p` and children `cs`. -/
inductive DirIn : Str → List Ent → Str → Prop
  | here {p nm : Str} {cs' cs : List Ent} :
      Ent.dir nm cs' ∈ cs → DirIn p cs (p ++ '/' :: nm)
  | deeper {p nm q : Str} {cs' cs : List Ent} :
      Ent.dir nm cs' ∈ cs → DirIn (p ++ '/' :: nm) cs' q → DirIn p cs q

theorem deeper_aux (p nm q : Str) (cs' : List Ent)
    (hq : ∀ m : EMap, q ∈ mapKeys (walkKids (p ++ '/' :: nm) m cs')) :
    ∀ (cs : List Ent) (m : EMap), Ent.dir nm cs' ∈ cs →
      q ∈ mapKeys (walkKids p m cs) := by
  intro cs
  induction cs with
  | nil => intro m h; simp at h
  | cons c t ih =>
    intro m h
    rcases List.mem_cons.mp h with heq | ht
    · subst heq
      show q ∈ mapKeys (walkKids p (walkEnt p m (.dir nm cs')) t)
      apply keys_mono_kids
      exact hq _
    · exact ih (walkEnt p m c) ht

theorem dirIn_mem_keys (p q : Str) (cs : List Ent) (hd : DirIn p cs q) :
    ∀ m : EMap, q ∈ mapKeys (walkKids p m cs) := by
  induction hd with
  | here hmem => intro m; exact dirchild_mem_keys_walkKids _ _ _ _ m hmem
  | deeper hmem _hd ih =>
    intro m
    exact deeper_aux _ _ _ _ ih _ m hmem

theorem rootkey_walkKids_iff (p : Str) (cs : List Ent) :
    p ∈ mapKeys (walkKids p [] cs) ↔ cs ≠ [] := by
  constructor
  · intro h hnil
    subst hnil
    simp [walkKids, mapKeys] at h
  · intro h
    cases cs with
    | nil => exact absurd rfl h
    | cons c t =>
      show p ∈ mapKeys (walkKids p (walkEnt p [] c) t)
      exact keys_mono_kids p p t _ (parent_mem_keys_walkEnt p [] c)

/-- Claim C10: if the object directory exists but has no children,
`RecursiveFiles` returns an empty map and no error; the traversal root
appears as a key of the result exactly when it has at least one child,
while every descendant directory, even an empty one, always gets its own
key. -/
theorem thmC10 (p : Str) :
    RecursiveFiles p (some []) = .ok ([] : EMap) ∧
    (∀ (cs : List Ent) (m : EMap), RecursiveFiles p (some cs) = .ok m →
      ((p ∈ mapKeys m ↔ cs ≠ []) ∧ (∀ q, DirIn p cs q → q ∈ mapKeys m))) := by
  refine ⟨rfl, ?_⟩
  intro cs m hm
  have hm2 : m = walkKids p [] cs := by
    simpa [RecursiveFiles] using hm.symm
  subst hm2
  exact ⟨rootkey_walkKids_iff p cs, fun q hq => dirIn_mem_keys p q cs hq []⟩

/-- Witness for C10 at the object directory r with one empty
subdirectory d: the walk result has key r/d. -/
theorem witC10 :
    (("r").data ++ '/' :: ("d").data) ∈
      mapKeys (walkKids ("r").data [] [Ent.dir ("d").data []]) := by
  have h := (thmC10 ("r").data).2 [Ent.dir ("d").data []]
    (walkKids ("r").data [] [Ent.dir ("d").data []]) rfl
  have hmem : Ent.dir ("d").data [] ∈ [Ent.dir ("d").data []] :=
    List.mem_singleton_self _
  exact h.2 _ (DirIn.here hmem)

/-- Embedding of `UnTarGz` (pkg/pairtree/pairtree.go, lines 334-393), from
the point where the archive has been extracted into the temporary
directory: `temp` holds the temporary directory's top-level entries,
`dest` the destination object path, and `destSt` the pre-existing state
of the destination (`none` when it does not exist, `some cs` for a
directory with children `cs`). Returns the operation's result together
with the final destination state. The validation (exactly one top-level
entry, that entry a directory, its name equal to the base name of the
destination) runs before `os.RemoveAll(dest)` and the final copy; the
temporary directory's deferred cleanup does not touch the destination. -/
def UnTarGz (temp : List Ent) (dest : Str) (destSt : Option (List Ent)) :
    Except PtErr Unit × Option (List Ent) :=
  let id := baseOf dest
  match temp with
  | [Ent.dir nm cs] =>
    if nm = id then (.ok (), some cs) else (.error .e13, destSt)
  | _ => (.error .e12, destSt)

/-- Claim C5: `UnTarGz` fails with the too-many-or-no-folders error
(Err12) unless the temporary directory holds exactly one top-level entry
and that entry is a directory; it fails with the identity-mismatch error
(Err13) when that directory's name differs from the base name of the
destination path; and on every such validation failure the pre-existing
destination state is left completely untouched. -/
theorem thmC05 (temp : List Ent) (dest : Str) (destSt : Option (List Ent)) :
    ((∀ (nm : Str) (cs : List Ent), temp ≠ [Ent.dir nm cs]) →
      UnTarGz temp dest destSt = (.error .e12, destSt)) ∧
    (∀ (nm : Str) (cs : List Ent), temp = [Ent.dir nm cs] → nm ≠ baseOf dest →
      UnTarGz temp dest destSt = (.error .e13, destSt)) := by
  constructor
  · intro h
    match temp with
    | [] => rfl
    | [Ent.file nm] => rfl
    | [Ent.dir nm cs] => exact absurd rfl (h nm cs)
    | a :: b :: t =>
      cases a <;> cases b <;> rfl
  · intro nm cs h hne
    subst h
    simp [UnTarGz, hne]

/-- Witness for C5: an archive whose temporary directory holds a single
file (not a directory) is rejected with Err12 and the pre-existing
destination state survives. -/
theorem witC05 :
    UnTarGz [Ent.file ("f").data] ("r/ob").data (some [Ent.file ("old").data]) =
      (.error .e12, some [Ent.file ("old").data]) :=
  (thmC05 [Ent.file ("f").data] ("r/ob").data (some [Ent.file ("old").data])).1
    (fun nm cs h => by simp at h)

/-- The state `ptmv` transforms: the source object and the destination
object, each `none` when absent from the filesystem. -/
structure MvState (α : Type) where
  src : Option α
  dest : Option α

/-- The transfer step selected by `Run`'s flags (cmd/ptmv/ptmv.go, lines
140-163): with the archive flag set, `TarGz` when the source is the
pairtree side and `UnTarGz` otherwise; without it,
`CopyFileOrFolder(src, dest, true)` (overwrite forced). Each primitive
is passed as a state transformer returning its result and the state it
leaves behind. -/
def selTransfer {α : Type}
    (tarFlag srcIsPt : Bool)
    (tarOp untarOp copyOp : MvState α → Except PtErr Unit × MvState α)
    (s : MvState α) : Except PtErr Unit × MvState α :=
  if tarFlag then
    if srcIsPt then tarOp s else untarOp s
  else copyOp s

/-- The tail of `ptmv.Run` (cmd/ptmv/ptmv.go, lines 136-168): the
destination is cleared by `os.RemoveAll(dest)`, the selected transfer
runs, an error from it is returned immediately, and only after a
successful transfer is the source removed by `os.RemoveAll(src)`. -/
def ptmvRun {α : Type}
    (tarFlag srcIsPt : Bool)
    (tarOp untarOp copyOp : MvState α → Except PtErr Unit × MvState α)
    (st : MvState α) : Except PtErr Unit × MvState α :=
  match selTransfer tarFlag srcIsPt tarOp untarOp copyOp { st with dest := none } with
  | (.error e, s2) => (.error e, s2)
  | (.ok _, s2) => (.ok (), { s2 with src := none })

/-- Claim C6: `ptmv` moves by copy-then-delete-source with overwrite
always forced: the destination is unconditionally cleared by recursive
removal before the transfer (the transfer runs on the dest-cleared
state), and the source is recursively removed only after the transfer
succeeds; when the selected copy, tar or untar step fails, the error is
returned and the source is not removed. -/
theorem thmC06 {α : Type} (tarFlag srcIsPt : Bool)
    (tarOp untarOp copyOp : MvState α → Except PtErr Unit × MvState α)
    (st : MvState α)
    (hTar : ∀ s, ((tarOp s).2).src = s.src)
    (hUntar : ∀ s, ((untarOp s).2).src = s.src)
    (hCopy : ∀ s, ((copyOp s).2).src = s.src) :
    (∀ e, (selTransfer tarFlag srcIsPt tarOp untarOp copyOp { st with dest := none }).1 = .error e →
      ptmvRun tarFlag srcIsPt tarOp untarOp copyOp st =
        (.error e, (selTransfer tarFlag srcIsPt tarOp untarOp copyOp { st with dest := none }).2) ∧
      (ptmvRun tarFlag srcIsPt tarOp untarOp copyOp st).2.src = st.src) ∧
    ((selTransfer tarFlag srcIsPt tarOp untarOp copyOp { st with dest := none }).1 = .ok () →
      (ptmvRun tarFlag srcIsPt tarOp untarOp copyOp st).1 = .ok () ∧
      (ptmvRun tarFlag srcIsPt tarOp untarOp copyOp st).2.src = none) := by
  have hsrc : ∀ s, ((selTransfer tarFlag srcIsPt tarOp untarOp copyOp s).2).src = s.src := by
    intro s
    unfold selTransfer
    by_cases h1 : tarFlag = true
    · by_cases h2 : srcIsPt = true
      · simp [h1, h2, hTar]
      · simp [h1, h2, hUntar]
    · simp [h1, hCopy]
  constructor
  · intro e he
    unfold ptmvRun
    rcases hr : selTransfer tarFlag srcIsPt tarOp untarOp copyOp { st with dest := none } with ⟨r, s2⟩
    rw [hr] at he
    simp only at he
    subst he
    have h2 : s2.src = st.src := by
      have hx := hsrc { st with dest := none }
      rw [hr] at hx
      exact hx
    simp [h2]
  · intro hok
    unfold ptmvRun
    rcases hr : selTransfer tarFlag srcIsPt tarOp untarOp copyOp { st with dest := none } with ⟨r, s2⟩
    rw [hr] at hok
    simp only at hok
    subst hok
    simp

/-- Witness for C6: a concrete successful copy transfer removes the
source and keeps the transfer's destination. -/
theorem witC06 :
    (ptmvRun false false
      (fun s => (.ok (), { s with dest := some 7 }))
      (fun s => (.ok (), { s with dest := some 7 }))
      (fun s => (.ok (), { s with dest := some 7 }))
      (⟨some 1, some 2⟩ : MvState Nat)).2.src = none :=
  (thmC06 false false
    (fun s => (.ok (), { s with dest := some 7 }))
    (fun s => (.ok (), { s with dest := some 7 }))
    (fun s => (.ok (), { s with dest := some 7 }))
    ⟨some 1, some 2⟩
    (fun _ => rfl) (fun _ => rfl) (fun _ => rfl)).2 rfl |>.2
